import Mathlib

/-!
Verification of the crafting planner (`src/craft_planner.py`).

Shallow embedding conventions:
* A `State` (an `OrderedDict` of item name to integer quantity, in a fixed
  catalog order) is modelled as an association list `CState = List (String × Int)`;
  list equality models `OrderedDict` equality over states sharing one catalog.
* Python dictionary indexing `state[item]` is modelled by `lookupItem`, which
  returns `none` where Python raises `KeyError`; functions that may raise are
  `Option`-valued, and `none` models a propagated exception.
* `float('inf')` and numeric costs are modelled by `PCost` (`fin n` or `inf`)
  with Python's arithmetic and ordering on non-negative reals plus infinity.
* The wall-clock budget `while time() - start_time < limit` is modelled by an
  abstract clock that advances one time unit per loop iteration, so a budget
  `limit : Int` permits exactly `limit.toNat` iterations.
* `heapq` on `(priority, state, action)` tuples is modelled by extracting the
  minimum entry under the lexicographic order on `(priority, state)`; entries
  in the queue always carry pairwise distinct states, so the action component
  never takes part in comparisons.
-/

namespace CraftPlanner

/-- Inventory snapshot: ordered (item, quantity) pairs, modelling the `State`
`OrderedDict` in its catalog order. -/
abbrev CState := List (String × Int)

/-- Models `state[item]` on a `State`: the value at the first matching key,
or `none` where Python raises `KeyError`. -/
def lookupItem : CState → String → Option Int
  | [], _ => none
  | (k, v) :: rest, key => if k = key then some v else lookupItem rest key

/-- Models `state[item] = val` on a `State`: replace the value at an existing
key in place (keeping the key order), or append a fresh key. -/
def setItem : CState → String → Int → CState
  | [], key, val => [(key, val)]
  | (k, v) :: rest, key, val =>
      if k = key then (k, val) :: rest else (k, v) :: setItem rest key val

/-- The key sequence of a state (the catalog order it carries). -/
def keys (s : CState) : List String := s.map Prod.fst

/-- Models `next_state[item] += value`: read (possibly `KeyError`), add,
write back. -/
def addItem (s : CState) (k : String) (v : Int) : Option CState :=
  (lookupItem s k).map fun old => setItem s k (old + v)

/-- Models `next_state[item] -= value`: read (possibly `KeyError`), subtract,
write back. -/
def subItem (s : CState) (k : String) (v : Int) : Option CState :=
  (lookupItem s k).map fun old => setItem s k (old - v)

/-- A raw rule definition: optional `Requires`, optional `Consumes`, mandatory
`Produces` (each a map modelled as an association list). -/
structure Rule where
  requires : Option (List (String × Int))
  consumes : Option (List (String × Int))
  produces : List (String × Int)

/-- The `for item, value in rule['Consumes'].items()` loop of `make_checker`:
`some false` on the first item with `state[item] < value`, `none` on a
`KeyError`, else `some true`. -/
def checkConsumesLoop : List (String × Int) → CState → Option Bool
  | [], _ => some true
  | (item, value) :: rest, s =>
      match lookupItem s item with
      | none => none
      | some q => if q < value then some false else checkConsumesLoop rest s

/-- The `for item, value in rule['Requires'].items()` loop of `make_checker`:
`some false` on the first item with `state[item] == 0`. -/
def checkRequiresLoop : List (String × Int) → CState → Option Bool
  | [], _ => some true
  | (item, _) :: rest, s =>
      match lookupItem s item with
      | none => none
      | some q => if q = 0 then some false else checkRequiresLoop rest s

/-- `make_checker(rule)`: the compiled precondition `check(state)`. -/
def make_checker (rule : Rule) : CState → Option Bool := fun s =>
  match (match rule.consumes with
         | some cs => checkConsumesLoop cs s
         | none => some true) with
  | none => none
  | some false => some false
  | some true =>
      match rule.requires with
      | some rs => checkRequiresLoop rs s
      | none => some true

/-- The `for item, value in rule['Produces'].items()` loop of `make_effector`:
increment each produced item in turn. -/
def applyProduces : List (String × Int) → CState → Option CState
  | [], s => some s
  | (item, value) :: rest, s =>
      match addItem s item value with
      | none => none
      | some s' => applyProduces rest s'

/-- The `for item, value in rule['Consumes'].items()` loop of `make_effector`:
decrement each consumed item in turn. -/
def applyConsumes : List (String × Int) → CState → Option CState
  | [], s => some s
  | (item, value) :: rest, s =>
      match subItem s item value with
      | none => none
      | some s' => applyConsumes rest s'

/-- `make_effector(rule)`: the compiled effect `effect(state)` — copy the
state, add every `Produces` amount, then subtract every `Consumes` amount. -/
def make_effector (rule : Rule) : CState → Option CState := fun s =>
  match applyProduces rule.produces s with
  | none => none
  | some s1 =>
      match rule.consumes with
      | some cs => applyConsumes cs s1
      | none => some s1

/-- The `for item, value in goal.items()` loop of `make_goal_checker`. -/
def goalLoop : List (String × Int) → CState → Option Bool
  | [], _ => some true
  | (item, value) :: rest, s =>
      match lookupItem s item with
      | none => none
      | some q => if q < value then some false else goalLoop rest s

/-- `make_goal_checker(goal)`: the compiled goal predicate `is_goal(state)`. -/
def make_goal_checker (goal : List (String × Int)) : CState → Option Bool :=
  fun s => goalLoop goal s

/-- Python numeric values as used by the planner: a number or `float('inf')`. -/
inductive PCost
  | fin : Int → PCost
  | inf : PCost
deriving DecidableEq

/-- Python `+` on these values: infinity absorbs. -/
def PCost.add : PCost → PCost → PCost
  | PCost.fin a, PCost.fin b => PCost.fin (a + b)
  | PCost.fin _, PCost.inf => PCost.inf
  | PCost.inf, _ => PCost.inf

/-- Python `<` on these values: every number is below `inf`, `inf < inf` is
false. -/
def PCost.blt : PCost → PCost → Bool
  | PCost.fin a, PCost.fin b => a < b
  | PCost.fin _, PCost.inf => true
  | PCost.inf, _ => false

/-- The hard-coded `tools` list of `heuristic`. -/
def tools : List String :=
  ["furnace", "bench", "wooden_pickaxe", "wooden_axe",
   "stone_pickaxe", "stone_axe", "iron_pickaxe", "iron_axe"]

/-- The hard-coded `materials_with_heuristic_value` table of `heuristic`. -/
def materials_with_heuristic_value : List (String × Int) :=
  [("coal", 1), ("cobble", 8), ("wood", 1), ("plank", 8),
   ("stick", 4), ("ore", 1), ("ingot", 6)]

/-- The `for tool in tools` loop of `heuristic`: `some true` when the first
tool with `state[tool] > 1` is found (the `return inf` branch). -/
def toolsLoop : List String → CState → Option Bool
  | [], _ => some false
  | t :: rest, s =>
      match lookupItem s t with
      | none => none
      | some q => if 1 < q then some true else toolsLoop rest s

/-- The `for material in materials_with_heuristic_value.keys()` loop of
`heuristic`. -/
def materialsLoop : List (String × Int) → CState → Option Bool
  | [], _ => some false
  | (m, cap) :: rest, s =>
      match lookupItem s m with
      | none => none
      | some q => if cap < q then some true else materialsLoop rest s

/-- `heuristic(state)`: `inf` when some tool quantity exceeds 1 or some capped
material exceeds its cap, else `0`; `none` models the `KeyError` raised when
the state lacks one of the hard-coded item names. -/
def heuristic (s : CState) : Option PCost :=
  match toolsLoop tools s with
  | none => none
  | some true => some PCost.inf
  | some false =>
      match materialsLoop materials_with_heuristic_value s with
      | none => none
      | some true => some PCost.inf
      | some false => some (PCost.fin 0)

/-- A compiled recipe: the `Recipe` namedtuple `(name, check, effect, cost)`,
where `cost` is the rule's `Time`. -/
structure Recipe where
  name : String
  check : CState → Option Bool
  effect : CState → Option CState
  cost : Int

/-- `graph(state)`: one `(name, effect(state), cost)` triple per recipe whose
`check(state)` holds, in recipe order. A `KeyError` inside any `check` or
`effect` propagates (modelled eagerly as `none`: a run whose expansion raises
makes `search` raise either way). -/
def graph : List Recipe → CState → Option (List (String × CState × Int))
  | [], _ => some []
  | r :: rest, s =>
      match r.check s with
      | none => none
      | some false => graph rest s
      | some true =>
          match r.effect s with
          | none => none
          | some s' =>
              match graph rest s with
              | none => none
              | some l => some ((r.name, s', r.cost) :: l)

/-- A frontier entry `(priority, state, inbound action)` as pushed on the
heap (`None` action only for the seeded start entry). -/
abbrev Entry := PCost × CState × Option String

/-- Python tuple comparison on `(item, quantity)` pairs. -/
def pairLt (a b : String × Int) : Bool :=
  decide (a.1 < b.1) || (a.1 == b.1 && decide (a.2 < b.2))

/-- Python comparison of two states' key tuples (`State.__lt__`):
lexicographic over the ordered (item, quantity) pairs. -/
def stateLt : CState → CState → Bool
  | [], [] => false
  | [], _ :: _ => true
  | _ :: _, [] => false
  | a :: as, b :: bs => pairLt a b || (a == b && stateLt as bs)

/-- Python comparison of two frontier entries: priority first, then the
state's total order; the action never takes part because queue entries carry
pairwise distinct states. -/
def entryLt (e f : Entry) : Bool :=
  PCost.blt e.1 f.1 || (e.1 == f.1 && stateLt e.2.1 f.2.1)

/-- `heappop(queue)`: remove the minimum entry (leftmost among minima) under
`entryLt`; `none` models the `IndexError` raised on an empty heap. -/
def heappop : List Entry → Option (Entry × List Entry)
  | [] => none
  | e :: rest =>
      match heappop rest with
      | none => some (e, [])
      | some (m, r) => if entryLt m e then some (m, e :: r) else some (e, rest)

/-- Dictionary lookup for the state-keyed bookkeeping maps. -/
def mapLookup {α : Type} : List (CState × α) → CState → Option α
  | [], _ => none
  | (k, v) :: rest, key => if k = key then some v else mapLookup rest key

/-- Dictionary assignment `m[key] = val` for the state-keyed bookkeeping maps:
replace in place or append a fresh key. -/
def mapSet {α : Type} : List (CState × α) → CState → α → List (CState × α)
  | [], key, val => [(key, val)]
  | (k, v) :: rest, key, val =>
      if k = key then (key, val) :: rest else (k, v) :: mapSet rest key val

/-- The mutable bookkeeping of one `search` invocation: frontier `queue`,
best-known `cost` map, `prev` and `actions` maps, and the `visited` list (in
the order states were admitted). -/
structure SS where
  queue : List Entry
  cost : List (CState × PCost)
  prev : List (CState × Option CState)
  actions : List (CState × Option String)
  visited : List CState

/-- The admission guard of the neighbor loop:
`(node_state not in cost or new_cost < cost[node_state]) and node_state not
in visited`. -/
def passGuard (costM : List (CState × PCost)) (visited : List CState)
    (node_state : CState) (new_cost : PCost) : Bool :=
  (match mapLookup costM node_state with
   | none => true
   | some c => PCost.blt new_cost c) && !(visited.contains node_state)

/-- The five mutations performed when a neighbor is admitted: record its
cost, action, visited mark, predecessor, and push `(new_cost + h, state,
action)` on the frontier. -/
def recordNeighbor (ss : SS) (current_state : CState) (node_action : String)
    (node_state : CState) (new_cost hv : PCost) : SS :=
  { queue := ss.queue ++ [(new_cost.add hv, node_state, some node_action)]
    cost := mapSet ss.cost node_state new_cost
    prev := mapSet ss.prev node_state (some current_state)
    actions := mapSet ss.actions node_state (some node_action)
    visited := ss.visited ++ [node_state] }

/-- The `for node_action, node_state, node_cost in graph(current_state)` loop
of `search`: passGuard each neighbor that is new-or-cheaper and unvisited (with
`new_cost = current_cost + node_cost` taken from the popped tuple's first
component); `none` models a `KeyError` from the heuristic. -/
def expandNbrs (hfn : CState → Option PCost) (current_cost : PCost)
    (current_state : CState) :
    List (String × CState × Int) → SS → Option SS
  | [], ss => some ss
  | (node_action, node_state, node_cost) :: rest, ss =>
      if passGuard ss.cost ss.visited node_state (current_cost.add (PCost.fin node_cost)) then
        match hfn node_state with
        | none => none
        | some hv =>
            expandNbrs hfn current_cost current_state rest
              (recordNeighbor ss current_state node_action node_state
                (current_cost.add (PCost.fin node_cost)) hv)
      else expandNbrs hfn current_cost current_state rest ss

/-- The `while current_back_node is not None` reconstruction loop: prepend
`(back, actions[back])` pairs while walking `prev` links. The fuel argument
only bounds the walk; a `prev` chain can never revisit a key, so fuel one
above the map size never runs out on a reachable search state. -/
def reconstruct (prevM : List (CState × Option CState))
    (actsM : List (CState × Option String)) :
    Nat → Option CState → List (CState × Option String) →
    Option (List (CState × Option String))
  | _, none, acc => some acc
  | 0, some _, _ => none
  | fuel + 1, some b, acc =>
      match mapLookup actsM b, mapLookup prevM b with
      | some a, some p => reconstruct prevM actsM fuel p ((b, a) :: acc)
      | _, _ => none

/-- The outcome of one `search` call: a reconstructed path, the explicit
`None` failure, or a raised exception (`IndexError`, `KeyError`). -/
inductive SRes
  | found : List (CState × Option String) → SRes
  | noPlan : SRes
  | err : SRes
deriving DecidableEq

/-- One loop iteration either finishes the call or continues with updated
bookkeeping. -/
inductive StepRes
  | done : SRes → StepRes
  | next : SS → StepRes

/-- One iteration of the `search` main loop: pop the minimum entry (empty
heap raises), stop with the reconstructed path when the popped state is a
goal, otherwise expand it and passGuard neighbors. -/
def searchStep (graphFn : CState → Option (List (String × CState × Int)))
    (is_goal : CState → Option Bool) (hfn : CState → Option PCost)
    (ss : SS) : StepRes :=
  match heappop ss.queue with
  | none => StepRes.done SRes.err
  | some ((current_cost, current_state, current_action), rest) =>
      match is_goal current_state with
      | none => StepRes.done SRes.err
      | some true =>
          match mapLookup ss.prev current_state with
          | none => StepRes.done SRes.err
          | some back =>
              match reconstruct ss.prev ss.actions (ss.prev.length + 1) back
                  [(current_state, current_action)] with
              | none => StepRes.done SRes.err
              | some path => StepRes.done (SRes.found path)
      | some false =>
          match graphFn current_state with
          | none => StepRes.done SRes.err
          | some triples =>
              match expandNbrs hfn current_cost current_state triples
                  { ss with queue := rest } with
              | none => StepRes.done SRes.err
              | some ss' => StepRes.next ss'

/-- The `while time() - start_time < limit` loop, with one abstract time unit
per iteration: run at most `fuel` iterations, and return the `None` failure
when the budget expires first. -/
def searchLoop (graphFn : CState → Option (List (String × CState × Int)))
    (is_goal : CState → Option Bool) (hfn : CState → Option PCost) :
    Nat → SS → SRes
  | 0, _ => SRes.noPlan
  | fuel + 1, ss =>
      match searchStep graphFn is_goal hfn ss with
      | StepRes.done r => r
      | StepRes.next ss' => searchLoop graphFn is_goal hfn fuel ss'

/-- The bookkeeping created at the top of `search`: the seeded frontier
`[(0, state, None)]` and the singleton `cost`/`prev`/`actions`/`visited`
structures. -/
def searchInit (state : CState) : SS :=
  { queue := [(PCost.fin 0, state, none)]
    cost := [(state, PCost.fin 0)]
    prev := [(state, none)]
    actions := [(state, none)]
    visited := [state] }

/-- `search(graph, state, is_goal, limit, heuristic)`: a budget of `limit`
time units permits `limit.toNat` loop iterations (none for a zero or negative
budget). -/
def search (graphFn : CState → Option (List (String × CState × Int)))
    (state : CState) (is_goal : CState → Option Bool) (limit : Int)
    (hfn : CState → Option PCost) : SRes :=
  searchLoop graphFn is_goal hfn limit.toNat (searchInit state)

/-- Iterating the main loop body `n` times from a given bookkeeping state
(`none` when the loop finished earlier); used to speak about the search states
reachable inside one invocation. -/
def iterN (graphFn : CState → Option (List (String × CState × Int)))
    (is_goal : CState → Option Bool) (hfn : CState → Option PCost) :
    Nat → SS → Option SS
  | 0, ss => some ss
  | n + 1, ss =>
      match searchStep graphFn is_goal hfn ss with
      | StepRes.next ss' => iterN graphFn is_goal hfn n ss'
      | StepRes.done _ => none

/-- `m.get(key, 0)` on a rule map modelled as an association list. -/
def getAmt : List (String × Int) → String → Int
  | [], _ => 0
  | (k, v) :: rest, key => if k = key then v else getAmt rest key

section Lemmas

theorem keys_cons (k : String) (v : Int) (tl : CState) :
    keys ((k, v) :: tl) = k :: keys tl := rfl

theorem lookupItem_setItem_self (s : CState) (k : String) (v : Int) :
    lookupItem (setItem s k v) k = some v := by
  induction s with
  | nil => simp [setItem, lookupItem]
  | cons hd tl ih =>
      obtain ⟨k', v'⟩ := hd
      by_cases h : k' = k <;> simp [setItem, lookupItem, h, ih]

theorem lookupItem_setItem_ne (s : CState) (k j : String) (v : Int) (hne : k ≠ j) :
    lookupItem (setItem s k v) j = lookupItem s j := by
  have hjk : j ≠ k := Ne.symm hne
  induction s with
  | nil => simp [setItem, lookupItem, hne]
  | cons hd tl ih =>
      obtain ⟨k', v'⟩ := hd
      by_cases h : k' = k
      · subst h
        simp [setItem, lookupItem, hne]
      · simp [setItem, lookupItem, h, ih]

theorem keys_setItem_of_mem (s : CState) (k : String) (v : Int) (h : k ∈ keys s) :
    keys (setItem s k v) = keys s := by
  induction s with
  | nil => simp [keys] at h
  | cons hd tl ih =>
      obtain ⟨k', v'⟩ := hd
      rw [keys_cons] at h
      by_cases hk : k' = k
      · subst hk
        simp [setItem, keys_cons]
      · rcases List.mem_cons.mp h with h1 | h1
        · exact absurd h1.symm hk
        · simp [setItem, hk, keys_cons, ih h1]

theorem exists_lookup_of_mem_keys {s : CState} {k : String} (h : k ∈ keys s) :
    ∃ q, lookupItem s k = some q := by
  induction s with
  | nil => simp [keys] at h
  | cons hd tl ih =>
      obtain ⟨k', v'⟩ := hd
      rw [keys_cons] at h
      by_cases hk : k' = k
      · exact ⟨v', by simp [lookupItem, hk]⟩
      · rcases List.mem_cons.mp h with h1 | h1
        · exact absurd h1.symm hk
        · obtain ⟨q, hq⟩ := ih h1
          exact ⟨q, by simp [lookupItem, hk, hq]⟩

theorem mem_keys_of_lookup {s : CState} {k : String} {q : Int}
    (h : lookupItem s k = some q) : k ∈ keys s := by
  induction s with
  | nil => simp [lookupItem] at h
  | cons hd tl ih =>
      obtain ⟨k', v'⟩ := hd
      rw [keys_cons]
      by_cases hk : k' = k
      · subst hk
        exact List.mem_cons_self _ _
      · simp only [lookupItem, if_neg hk] at h
        exact List.mem_cons_of_mem _ (ih h)

theorem getAmt_eq_zero_of_not_mem {ps : List (String × Int)} {k : String}
    (h : k ∉ ps.map Prod.fst) : getAmt ps k = 0 := by
  induction ps with
  | nil => rfl
  | cons hd tl ih =>
      obtain ⟨k', v'⟩ := hd
      rw [List.map_cons] at h
      have hne : k' ≠ k := fun he => h (he ▸ List.mem_cons_self _ _)
      have htl : k ∉ tl.map Prod.fst := fun hm => h (List.mem_cons_of_mem _ hm)
      simp [getAmt, hne, ih htl]

/-- The `Produces` loop: under distinct keys all present in the state, it
succeeds, keeps the key order, and adds `P.get(i, 0)` to every slot. -/
theorem applyProduces_spec (ps : List (String × Int)) (s : CState)
    (hnd : (ps.map Prod.fst).Nodup) (hsub : ∀ p ∈ ps, p.1 ∈ keys s) :
    ∃ t, applyProduces ps s = some t ∧ keys t = keys s ∧
      ∀ j q, lookupItem s j = some q → lookupItem t j = some (q + getAmt ps j) := by
  induction ps generalizing s with
  | nil =>
      exact ⟨s, rfl, rfl, fun j q hq => by simpa [getAmt] using hq⟩
  | cons hd tl ih =>
      obtain ⟨k, v⟩ := hd
      rw [List.map_cons, List.nodup_cons] at hnd
      have hknotin : k ∉ tl.map Prod.fst := hnd.1
      have hnd' : (tl.map Prod.fst).Nodup := hnd.2
      have hkmem : k ∈ keys s := hsub (k, v) (List.mem_cons_self _ _)
      obtain ⟨q0, hq0⟩ := exists_lookup_of_mem_keys hkmem
      have hstep : addItem s k v = some (setItem s k (q0 + v)) := by
        simp [addItem, hq0]
      have hsub' : ∀ p ∈ tl, p.1 ∈ keys (setItem s k (q0 + v)) := by
        intro p hp
        rw [keys_setItem_of_mem s k _ hkmem]
        exact hsub p (List.mem_cons_of_mem _ hp)
      obtain ⟨t, ht, htk, htv⟩ := ih (setItem s k (q0 + v)) hnd' hsub'
      refine ⟨t, ?_, ?_, ?_⟩
      · simp [applyProduces, hstep, ht]
      · rw [htk, keys_setItem_of_mem s k _ hkmem]
      · intro j q hq
        by_cases hj : j = k
        · subst hj
          rw [hq0] at hq
          obtain rfl : q0 = q := by injection hq
          have hlk : lookupItem (setItem s j (q0 + v)) j = some (q0 + v) :=
            lookupItem_setItem_self s j (q0 + v)
          have hres := htv j (q0 + v) hlk
          rw [getAmt_eq_zero_of_not_mem hknotin, add_zero] at hres
          rw [hres]
          simp [getAmt]
        · have hkj : k ≠ j := fun he => hj he.symm
          have hlk : lookupItem (setItem s k (q0 + v)) j = some q := by
            rw [lookupItem_setItem_ne s k j _ hkj]
            exact hq
          rw [htv j q hlk]
          simp [getAmt, hkj]

/-- The `Consumes` loop: under distinct keys all present in the state, it
succeeds, keeps the key order, and subtracts `C.get(i, 0)` from every slot. -/
theorem applyConsumes_spec (cs : List (String × Int)) (s : CState)
    (hnd : (cs.map Prod.fst).Nodup) (hsub : ∀ p ∈ cs, p.1 ∈ keys s) :
    ∃ t, applyConsumes cs s = some t ∧ keys t = keys s ∧
      ∀ j q, lookupItem s j = some q → lookupItem t j = some (q - getAmt cs j) := by
  induction cs generalizing s with
  | nil =>
      exact ⟨s, rfl, rfl, fun j q hq => by simpa [getAmt] using hq⟩
  | cons hd tl ih =>
      obtain ⟨k, v⟩ := hd
      rw [List.map_cons, List.nodup_cons] at hnd
      have hknotin : k ∉ tl.map Prod.fst := hnd.1
      have hnd' : (tl.map Prod.fst).Nodup := hnd.2
      have hkmem : k ∈ keys s := hsub (k, v) (List.mem_cons_self _ _)
      obtain ⟨q0, hq0⟩ := exists_lookup_of_mem_keys hkmem
      have hstep : subItem s k v = some (setItem s k (q0 - v)) := by
        simp [subItem, hq0]
      have hsub' : ∀ p ∈ tl, p.1 ∈ keys (setItem s k (q0 - v)) := by
        intro p hp
        rw [keys_setItem_of_mem s k _ hkmem]
        exact hsub p (List.mem_cons_of_mem _ hp)
      obtain ⟨t, ht, htk, htv⟩ := ih (setItem s k (q0 - v)) hnd' hsub'
      refine ⟨t, ?_, ?_, ?_⟩
      · simp [applyConsumes, hstep, ht]
      · rw [htk, keys_setItem_of_mem s k _ hkmem]
      · intro j q hq
        by_cases hj : j = k
        · subst hj
          rw [hq0] at hq
          obtain rfl : q0 = q := by injection hq
          have hlk : lookupItem (setItem s j (q0 - v)) j = some (q0 - v) :=
            lookupItem_setItem_self s j (q0 - v)
          have hres := htv j (q0 - v) hlk
          rw [getAmt_eq_zero_of_not_mem hknotin, sub_zero] at hres
          rw [hres]
          simp [getAmt]
        · have hkj : k ≠ j := fun he => hj he.symm
          have hlk : lookupItem (setItem s k (q0 - v)) j = some q := by
            rw [lookupItem_setItem_ne s k j _ hkj]
            exact hq
          rw [htv j q hlk]
          simp [getAmt, hkj]

end Lemmas

section CheckerLemmas

theorem lookup_nonneg {s : CState} (hnn : ∀ p ∈ s, 0 ≤ p.2) {k : String} {q : Int}
    (h : lookupItem s k = some q) : 0 ≤ q := by
  induction s with
  | nil => simp [lookupItem] at h
  | cons hd tl ih =>
      obtain ⟨k', v'⟩ := hd
      by_cases hk : k' = k
      · simp only [lookupItem, if_pos hk] at h
        obtain rfl : v' = q := by injection h
        exact hnn (k', v') (List.mem_cons_self _ _)
      · simp only [lookupItem, if_neg hk] at h
        exact ih (fun p hp => hnn p (List.mem_cons_of_mem _ hp)) h

theorem checkConsumesLoop_spec (cs : List (String × Int)) (s : CState)
    (hsub : ∀ p ∈ cs, p.1 ∈ keys s) :
    ∃ b, checkConsumesLoop cs s = some b ∧
      (b = true ↔ ∀ p ∈ cs, ∃ q, lookupItem s p.1 = some q ∧ p.2 ≤ q) := by
  induction cs with
  | nil => exact ⟨true, rfl, by simp⟩
  | cons hd tl ih =>
      obtain ⟨k, v⟩ := hd
      obtain ⟨q, hq⟩ := exists_lookup_of_mem_keys (hsub (k, v) (List.mem_cons_self _ _))
      by_cases hlt : q < v
      · refine ⟨false, by simp [checkConsumesLoop, hq, hlt], ?_⟩
        refine ⟨fun h => Bool.noConfusion h, fun h => ?_⟩
        obtain ⟨q2, hq2, hle⟩ := h (k, v) (List.mem_cons_self _ _)
        rw [hq] at hq2
        obtain rfl : q = q2 := by injection hq2
        exact absurd hle (not_le.mpr hlt)
      · obtain ⟨b, hb, hiff⟩ := ih (fun p hp => hsub p (List.mem_cons_of_mem _ hp))
        refine ⟨b, by simp [checkConsumesLoop, hq, hlt, hb], ?_⟩
        rw [hiff]
        constructor
        · intro h p hp
          rcases List.mem_cons.mp hp with rfl | hp'
          · exact ⟨q, hq, not_lt.mp hlt⟩
          · exact h p hp'
        · intro h p hp
          exact h p (List.mem_cons_of_mem _ hp)

theorem checkRequiresLoop_spec (rs : List (String × Int)) (s : CState)
    (hnn : ∀ p ∈ s, 0 ≤ p.2) (hsub : ∀ p ∈ rs, p.1 ∈ keys s) :
    ∃ b, checkRequiresLoop rs s = some b ∧
      (b = true ↔ ∀ p ∈ rs, ∃ q, lookupItem s p.1 = some q ∧ 0 < q) := by
  induction rs with
  | nil => exact ⟨true, rfl, by simp⟩
  | cons hd tl ih =>
      obtain ⟨k, v⟩ := hd
      obtain ⟨q, hq⟩ := exists_lookup_of_mem_keys (hsub (k, v) (List.mem_cons_self _ _))
      by_cases hq0 : q = 0
      · refine ⟨false, by simp [checkRequiresLoop, hq, hq0], ?_⟩
        refine ⟨fun h => Bool.noConfusion h, fun h => ?_⟩
        obtain ⟨q2, hq2, hpos⟩ := h (k, v) (List.mem_cons_self _ _)
        rw [hq] at hq2
        obtain rfl : q = q2 := by injection hq2
        rw [hq0] at hpos
        exact absurd hpos (lt_irrefl 0)
      · obtain ⟨b, hb, hiff⟩ := ih (fun p hp => hsub p (List.mem_cons_of_mem _ hp))
        refine ⟨b, by simp [checkRequiresLoop, hq, hq0, hb], ?_⟩
        rw [hiff]
        constructor
        · intro h p hp
          rcases List.mem_cons.mp hp with rfl | hp'
          · exact ⟨q, hq, lt_of_le_of_ne (lookup_nonneg hnn hq) (Ne.symm hq0)⟩
          · exact h p hp'
        · intro h p hp
          exact h p (List.mem_cons_of_mem _ hp)

end CheckerLemmas

/-- C5: over a state with non-negative quantities that covers the rule's
referenced items, the compiled precondition evaluates without error, and is
true exactly when every `Consumes` amount is available and every `Requires`
item is strictly positive (each clause vacuous when absent). -/
theorem make_checker_spec (rule : Rule) (s : CState)
    (hnn : ∀ p ∈ s, 0 ≤ p.2)
    (hsubC : ∀ cs, rule.consumes = some cs → ∀ p ∈ cs, p.1 ∈ keys s)
    (hsubR : ∀ rs, rule.requires = some rs → ∀ p ∈ rs, p.1 ∈ keys s) :
    ∃ b, make_checker rule s = some b ∧
      (b = true ↔
        (∀ cs, rule.consumes = some cs →
          ∀ p ∈ cs, ∃ q, lookupItem s p.1 = some q ∧ p.2 ≤ q) ∧
        (∀ rs, rule.requires = some rs →
          ∀ p ∈ rs, ∃ q, lookupItem s p.1 = some q ∧ 0 < q)) := by
  have hcons : ∃ b, (match rule.consumes with
      | some cs => checkConsumesLoop cs s
      | none => some true) = some b ∧
      (b = true ↔ ∀ cs, rule.consumes = some cs →
        ∀ p ∈ cs, ∃ q, lookupItem s p.1 = some q ∧ p.2 ≤ q) := by
    cases hc : rule.consumes with
    | none => exact ⟨true, rfl, by simp⟩
    | some cs =>
        obtain ⟨b, hb, hiff⟩ := checkConsumesLoop_spec cs s (hsubC cs hc)
        refine ⟨b, hb, ?_⟩
        rw [hiff]
        constructor
        · intro h cs' hcs'
          obtain rfl : cs' = cs := Option.some.inj hcs'.symm
          exact h
        · intro h
          exact h cs rfl
  have hreq : ∃ b, (match rule.requires with
      | some rs => checkRequiresLoop rs s
      | none => some true) = some b ∧
      (b = true ↔ ∀ rs, rule.requires = some rs →
        ∀ p ∈ rs, ∃ q, lookupItem s p.1 = some q ∧ 0 < q) := by
    cases hr : rule.requires with
    | none => exact ⟨true, rfl, by simp⟩
    | some rs =>
        obtain ⟨b, hb, hiff⟩ := checkRequiresLoop_spec rs s hnn (hsubR rs hr)
        refine ⟨b, hb, ?_⟩
        rw [hiff]
        constructor
        · intro h rs' hrs'
          obtain rfl : rs' = rs := Option.some.inj hrs'.symm
          exact h
        · intro h
          exact h rs rfl
  obtain ⟨b1, hb1, hiff1⟩ := hcons
  obtain ⟨b2, hb2, hiff2⟩ := hreq
  cases b1 with
  | false =>
      refine ⟨false, ?_, ?_⟩
      · simp only [make_checker, hb1]
      · refine ⟨fun h => Bool.noConfusion h, fun h => ?_⟩
        exact absurd (hiff1.mpr h.1) (by simp)
  | true =>
      refine ⟨b2, ?_, ?_⟩
      · simp only [make_checker, hb1]
        exact hb2
      · rw [hiff2]
        exact ⟨fun h => ⟨hiff1.mp rfl, h⟩, fun h => h.2⟩

/-- C4: for a recipe whose referenced items all lie in the state's catalog
(with the per-clause distinct keys a Python dict guarantees), when the
compiled precondition holds the compiled effect succeeds and returns a state
whose every slot equals the input slot plus `Produces.get(i, 0)` minus
`Consumes.get(i, 0)`, with the key order unchanged; the input is untouched
because the embedding (like the Python `effect`, which works on a copy) never
mutates it. -/
theorem make_effector_spec (rule : Rule) (s : CState)
    (hndP : (rule.produces.map Prod.fst).Nodup)
    (hsubP : ∀ p ∈ rule.produces, p.1 ∈ keys s)
    (hndC : ∀ cs, rule.consumes = some cs → (cs.map Prod.fst).Nodup)
    (hsubC : ∀ cs, rule.consumes = some cs → ∀ p ∈ cs, p.1 ∈ keys s)
    (_hpre : make_checker rule s = some true) :
    ∃ t, make_effector rule s = some t ∧ keys t = keys s ∧
      ∀ j q, lookupItem s j = some q →
        lookupItem t j = some (q + getAmt rule.produces j -
          (match rule.consumes with
           | some cs => getAmt cs j
           | none => 0)) := by
  obtain ⟨t1, ht1, ht1k, ht1v⟩ := applyProduces_spec rule.produces s hndP hsubP
  cases hcs : rule.consumes with
  | none =>
      refine ⟨t1, ?_, ht1k, ?_⟩
      · simp [make_effector, ht1, hcs]
      · intro j q hq
        simpa using ht1v j q hq
  | some cs =>
      have hndC' := hndC cs hcs
      have hsubC' : ∀ p ∈ cs, p.1 ∈ keys t1 := by
        intro p hp
        rw [ht1k]
        exact hsubC cs hcs p hp
      obtain ⟨t2, ht2, ht2k, ht2v⟩ := applyConsumes_spec cs t1 hndC' hsubC'
      refine ⟨t2, ?_, by rw [ht2k, ht1k], ?_⟩
      · simp [make_effector, ht1, hcs, ht2]
      · intro j q hq
        simpa using ht2v j _ (ht1v j q hq)

/-- C6: when every recipe's precondition evaluates without error on `state`
(and the effect of each passing recipe succeeds), `graph` yields exactly one
`(name, effect(state), cost)` triple per recipe whose precondition holds, in
the recipes' declared order (the `filterMap` presentation), and hence at most
one triple per recipe; being a pure function of `(recipes, state)`, a second
call on the same state yields the same triples. -/
theorem graph_spec (recipes : List Recipe) (s : CState)
    (h : ∀ r ∈ recipes, ∃ b, r.check s = some b ∧
      (b = true → ∃ s2, r.effect s = some s2)) :
    graph recipes s = some (recipes.filterMap fun r =>
      match r.check s, r.effect s with
      | some true, some s2 => some (r.name, s2, r.cost)
      | _, _ => none) ∧
    (recipes.filterMap fun r =>
      match r.check s, r.effect s with
      | some true, some s2 => some (r.name, s2, r.cost)
      | _, _ => none).length ≤ recipes.length := by
  constructor
  · induction recipes with
    | nil => rfl
    | cons r rest ih =>
        obtain ⟨b, hb, he⟩ := h r (List.mem_cons_self _ _)
        have ih2 := ih (fun r2 hr2 => h r2 (List.mem_cons_of_mem _ hr2))
        cases b with
        | false => simp [graph, hb, List.filterMap_cons, ih2]
        | true =>
            obtain ⟨s2, hs2⟩ := he rfl
            simp [graph, hb, hs2, List.filterMap_cons, ih2]
  · exact List.length_filterMap_le _ _

section HeuristicLemmas

theorem toolsLoop_spec (ts : List String) (s : CState)
    (hsub : ∀ t ∈ ts, t ∈ keys s) :
    ∃ b, toolsLoop ts s = some b ∧
      (b = true ↔ ∃ t ∈ ts, ∃ q, lookupItem s t = some q ∧ 1 < q) := by
  induction ts with
  | nil => exact ⟨false, rfl, by simp⟩
  | cons t rest ih =>
      obtain ⟨q, hq⟩ := exists_lookup_of_mem_keys (hsub t (List.mem_cons_self _ _))
      by_cases hgt : 1 < q
      · refine ⟨true, by simp [toolsLoop, hq, hgt], ?_⟩
        simp only [true_iff]
        exact ⟨t, List.mem_cons_self _ _, q, hq, hgt⟩
      · obtain ⟨b, hb, hiff⟩ := ih (fun t2 ht2 => hsub t2 (List.mem_cons_of_mem _ ht2))
        refine ⟨b, by simp [toolsLoop, hq, hgt, hb], ?_⟩
        rw [hiff]
        constructor
        · rintro ⟨t2, ht2, q2, hq2, hgt2⟩
          exact ⟨t2, List.mem_cons_of_mem _ ht2, q2, hq2, hgt2⟩
        · rintro ⟨t2, ht2, q2, hq2, hgt2⟩
          rcases List.mem_cons.mp ht2 with rfl | ht2'
          · rw [hq] at hq2
            obtain rfl : q = q2 := by injection hq2
            exact absurd hgt2 hgt
          · exact ⟨t2, ht2', q2, hq2, hgt2⟩

theorem materialsLoop_spec (ms : List (String × Int)) (s : CState)
    (hsub : ∀ p ∈ ms, p.1 ∈ keys s) :
    ∃ b, materialsLoop ms s = some b ∧
      (b = true ↔ ∃ p ∈ ms, ∃ q, lookupItem s p.1 = some q ∧ p.2 < q) := by
  induction ms with
  | nil => exact ⟨false, rfl, by simp⟩
  | cons hd rest ih =>
      obtain ⟨m, cap⟩ := hd
      obtain ⟨q, hq⟩ := exists_lookup_of_mem_keys (hsub (m, cap) (List.mem_cons_self _ _))
      by_cases hgt : cap < q
      · refine ⟨true, by simp [materialsLoop, hq, hgt], ?_⟩
        simp only [true_iff]
        exact ⟨(m, cap), List.mem_cons_self _ _, q, hq, hgt⟩
      · obtain ⟨b, hb, hiff⟩ := ih (fun p hp => hsub p (List.mem_cons_of_mem _ hp))
        refine ⟨b, by simp [materialsLoop, hq, hgt, hb], ?_⟩
        rw [hiff]
        constructor
        · rintro ⟨p, hp, q2, hq2, hgt2⟩
          exact ⟨p, List.mem_cons_of_mem _ hp, q2, hq2, hgt2⟩
        · rintro ⟨p, hp, q2, hq2, hgt2⟩
          rcases List.mem_cons.mp hp with rfl | hp'
          · rw [hq] at hq2
            obtain rfl : q = q2 := by injection hq2
            exact absurd hgt2 hgt
          · exact ⟨p, hp', q2, hq2, hgt2⟩

end HeuristicLemmas

/-- A state has over-accumulated exactly when some hard-coded tool exceeds
quantity 1 or some capped material exceeds its configured cap. -/
def overAccumulated (s : CState) : Prop :=
  (∃ t ∈ tools, ∃ q, lookupItem s t = some q ∧ 1 < q) ∨
  (∃ p ∈ materials_with_heuristic_value, ∃ q, lookupItem s p.1 = some q ∧ p.2 < q)

/-- C7: on a state covering the heuristic's hard-coded item names, the
heuristic returns positive infinity exactly when some tool quantity exceeds 1
or some capped material exceeds its cap, and returns zero exactly
otherwise. -/
theorem heuristic_spec (s : CState)
    (hsubT : ∀ t ∈ tools, t ∈ keys s)
    (hsubM : ∀ p ∈ materials_with_heuristic_value, p.1 ∈ keys s) :
    (heuristic s = some PCost.inf ↔ overAccumulated s) ∧
    (heuristic s = some (PCost.fin 0) ↔ ¬ overAccumulated s) := by
  obtain ⟨b1, hb1, hiff1⟩ := toolsLoop_spec tools s hsubT
  obtain ⟨b2, hb2, hiff2⟩ := materialsLoop_spec materials_with_heuristic_value s hsubM
  cases b1 with
  | true =>
      have hov : overAccumulated s := Or.inl (hiff1.mp rfl)
      have hv : heuristic s = some PCost.inf := by
        simp [heuristic, hb1]
      refine ⟨⟨fun _ => hov, fun _ => hv⟩, ⟨fun h => ?_, fun h => absurd hov h⟩⟩
      rw [hv] at h
      exact absurd (Option.some.inj h) (by simp)
  | false =>
      cases b2 with
      | true =>
          have hov : overAccumulated s := Or.inr (hiff2.mp rfl)
          have hv : heuristic s = some PCost.inf := by
            simp [heuristic, hb1, hb2]
          refine ⟨⟨fun _ => hov, fun _ => hv⟩, ⟨fun h => ?_, fun h => absurd hov h⟩⟩
          rw [hv] at h
          exact absurd (Option.some.inj h) (by simp)
      | false =>
          have hnov : ¬ overAccumulated s := by
            rintro (h | h)
            · exact Bool.noConfusion (hiff1.mpr h)
            · exact Bool.noConfusion (hiff2.mpr h)
          have hv : heuristic s = some (PCost.fin 0) := by
            simp [heuristic, hb1, hb2]
          refine ⟨⟨fun h => ?_, fun h => absurd h hnov⟩, ⟨fun _ => hnov, fun _ => hv⟩⟩
          rw [hv] at h
          exact absurd (Option.some.inj h) (by simp)

section SearchLemmas

theorem mapLookup_mapSet_self {α : Type} (m : List (CState × α)) (k : CState) (v : α) :
    mapLookup (mapSet m k v) k = some v := by
  induction m with
  | nil => simp [mapSet, mapLookup]
  | cons hd tl ih =>
      obtain ⟨k2, v2⟩ := hd
      by_cases h : k2 = k <;> simp [mapSet, mapLookup, h, ih]

theorem mapLookup_mapSet_ne {α : Type} (m : List (CState × α)) (k j : CState) (v : α)
    (hne : k ≠ j) : mapLookup (mapSet m k v) j = mapLookup m j := by
  induction m with
  | nil => simp [mapSet, mapLookup, hne]
  | cons hd tl ih =>
      obtain ⟨k2, v2⟩ := hd
      by_cases h : k2 = k
      · subst h
        simp [mapSet, mapLookup, hne]
      · simp [mapSet, mapLookup, h, ih]

theorem not_mem_of_passGuard {costM : List (CState × PCost)} {visited : List CState}
    {ns : CState} {nc : PCost} (h : passGuard costM visited ns nc = true) :
    ns ∉ visited := by
  intro hmem
  have := (Bool.and_eq_true _ _).mp h
  rw [Bool.not_eq_true'] at this
  exact Bool.noConfusion (((List.elem_iff).mpr hmem).symm.trans this.2)

/-- Decomposition of one neighbor-loop pass: the visited list grows by
exactly the states of the entries pushed on the frontier (in order), every
newly admitted state was unvisited before the pass, the bookkeeping of
already-visited states is untouched, and distinctness of the admission log is
preserved. -/
theorem expandNbrs_decomp (hfn : CState → Option PCost) (cc : PCost) (cs : CState)
    (ts : List (String × CState × Int)) (ss ss' : SS)
    (h : expandNbrs hfn cc cs ts ss = some ss') :
    ∃ vs qs,
      ss'.visited = ss.visited ++ vs ∧
      ss'.queue = ss.queue ++ qs ∧
      qs.map (fun e => e.2.1) = vs ∧
      (∀ v ∈ vs, v ∉ ss.visited) ∧
      (∀ n ∈ ss.visited, mapLookup ss'.cost n = mapLookup ss.cost n ∧
        mapLookup ss'.prev n = mapLookup ss.prev n ∧
        mapLookup ss'.actions n = mapLookup ss.actions n) ∧
      (ss.visited.Nodup → ss'.visited.Nodup) := by
  induction ts generalizing ss with
  | nil =>
      obtain rfl : ss = ss' := by injection h
      exact ⟨[], [], by simp, by simp, rfl, by simp, fun n _ => ⟨rfl, rfl, rfl⟩, fun hh => hh⟩
  | cons hd rest ih =>
      obtain ⟨na, ns, nc⟩ := hd
      simp only [expandNbrs] at h
      by_cases hcond : passGuard ss.cost ss.visited ns (cc.add (PCost.fin nc)) = true
      · rw [if_pos hcond] at h
        have hfreshns : ns ∉ ss.visited := not_mem_of_passGuard hcond
        cases hh : hfn ns with
        | none => rw [hh] at h; exact Option.noConfusion h
        | some hv =>
            rw [hh] at h
            obtain ⟨vs, qs, h1, h2, h3, h4, h5, h6⟩ := ih _ h
            refine ⟨ns :: vs, ((cc.add (PCost.fin nc)).add hv, ns, some na) :: qs,
              ?_, ?_, ?_, ?_, ?_, ?_⟩
            · rw [h1]
              simp [recordNeighbor]
            · rw [h2]
              simp [recordNeighbor]
            · simp only [List.map_cons, h3]
            · intro v hv2
              rcases List.mem_cons.mp hv2 with rfl | hv3
              · exact hfreshns
              · have := h4 v hv3
                simp only [recordNeighbor, List.mem_append, List.mem_singleton] at this
                exact fun hc => this (Or.inl hc)
            · intro n hn
              have hne : ns ≠ n := fun he => hfreshns (he ▸ hn)
              have hmid : n ∈ (recordNeighbor ss cs na ns (cc.add (PCost.fin nc)) hv).visited := by
                simp [recordNeighbor, hn]
              obtain ⟨hc5, hp5, ha5⟩ := h5 n hmid
              refine ⟨?_, ?_, ?_⟩
              · rw [hc5]
                simp only [recordNeighbor]
                exact mapLookup_mapSet_ne _ _ _ _ hne
              · rw [hp5]
                simp only [recordNeighbor]
                exact mapLookup_mapSet_ne _ _ _ _ hne
              · rw [ha5]
                simp only [recordNeighbor]
                exact mapLookup_mapSet_ne _ _ _ _ hne
            · intro hnd
              refine h6 ?_
              simp [recordNeighbor, List.nodup_append, hnd, hfreshns]
      · rw [if_neg hcond] at h
        obtain ⟨vs, qs, h1, h2, h3, h4, h5, h6⟩ := ih _ h
        exact ⟨vs, qs, h1, h2, h3, h4, h5, h6⟩

/-- The record kept for a state admitted during one neighbor-loop pass: its
inbound triple is in the expansion list, its cost-map entry is the popped
tuple's first component plus the step cost, and its frontier entry adds the
heuristic value on top. -/
theorem expandNbrs_recorded (hfn : CState → Option PCost) (cc : PCost) (cs : CState)
    (ts : List (String × CState × Int)) (ss ss' : SS)
    (h : expandNbrs hfn cc cs ts ss = some ss')
    (n : CState) (hmem : n ∈ ss'.visited) (hfresh : n ∉ ss.visited) :
    ∃ na nc hv, (na, n, nc) ∈ ts ∧ hfn n = some hv ∧
      mapLookup ss'.cost n = some (cc.add (PCost.fin nc)) ∧
      ((cc.add (PCost.fin nc)).add hv, n, some na) ∈ ss'.queue ∧
      mapLookup ss'.prev n = some (some cs) ∧
      mapLookup ss'.actions n = some (some na) := by
  induction ts generalizing ss with
  | nil =>
      obtain rfl : ss = ss' := by injection h
      exact absurd hmem hfresh
  | cons hd rest ih =>
      obtain ⟨na0, ns0, nc0⟩ := hd
      simp only [expandNbrs] at h
      by_cases hcond : passGuard ss.cost ss.visited ns0 (cc.add (PCost.fin nc0)) = true
      · rw [if_pos hcond] at h
        cases hh : hfn ns0 with
        | none => rw [hh] at h; exact Option.noConfusion h
        | some hv0 =>
            rw [hh] at h
            by_cases hn : n = ns0
            · subst hn
              obtain ⟨vs, qs, h1, h2, h3, h4, h5, h6⟩ := expandNbrs_decomp hfn cc cs rest _ ss' h
              have hmemMid : n ∈ (recordNeighbor ss cs na0 n (cc.add (PCost.fin nc0)) hv0).visited := by
                simp [recordNeighbor]
              obtain ⟨hc5, hp5, ha5⟩ := h5 n hmemMid
              refine ⟨na0, nc0, hv0, List.mem_cons_self _ _, hh, ?_, ?_, ?_, ?_⟩
              · rw [hc5]
                simp only [recordNeighbor]
                exact mapLookup_mapSet_self _ _ _
              · rw [h2]
                refine List.mem_append_left _ ?_
                simp [recordNeighbor]
              · rw [hp5]
                simp only [recordNeighbor]
                exact mapLookup_mapSet_self _ _ _
              · rw [ha5]
                simp only [recordNeighbor]
                exact mapLookup_mapSet_self _ _ _
            · have hfresh2 : n ∉ (recordNeighbor ss cs na0 ns0 (cc.add (PCost.fin nc0)) hv0).visited := by
                simp [recordNeighbor, hfresh, hn]
              obtain ⟨na, nc, hv, hmem2, hrest⟩ := ih _ h hfresh2
              exact ⟨na, nc, hv, List.mem_cons_of_mem _ hmem2, hrest⟩
      · rw [if_neg hcond] at h
        obtain ⟨na, nc, hv, hmem2, hrest⟩ := ih _ h hfresh
        exact ⟨na, nc, hv, List.mem_cons_of_mem _ hmem2, hrest⟩

/-- Inversion of one successful (continuing) main-loop iteration. -/
theorem searchStep_next_elim (graphFn : CState → Option (List (String × CState × Int)))
    (is_goal : CState → Option Bool) (hfn : CState → Option PCost) (ss ss' : SS)
    (h : searchStep graphFn is_goal hfn ss = StepRes.next ss') :
    ∃ cc st ca rest ts, heappop ss.queue = some ((cc, st, ca), rest) ∧
      is_goal st = some false ∧ graphFn st = some ts ∧
      expandNbrs hfn cc st ts { ss with queue := rest } = some ss' := by
  unfold searchStep at h
  cases hp : heappop ss.queue with
  | none => simp only [hp] at h; exact StepRes.noConfusion h
  | some pr =>
      obtain ⟨⟨cc, st, ca⟩, rest⟩ := pr
      simp only [hp] at h
      cases hg : is_goal st with
      | none => simp only [hg] at h; exact StepRes.noConfusion h
      | some b =>
          cases b with
          | true =>
              simp only [hg] at h
              cases hl : mapLookup ss.prev st with
              | none => simp only [hl] at h; exact StepRes.noConfusion h
              | some back =>
                  simp only [hl] at h
                  cases hr : reconstruct ss.prev ss.actions (ss.prev.length + 1) back
                      [(st, ca)] with
                  | none => simp only [hr] at h; exact StepRes.noConfusion h
                  | some path => simp only [hr] at h; exact StepRes.noConfusion h
          | false =>
              simp only [hg] at h
              cases hgr : graphFn st with
              | none => simp only [hgr] at h; exact StepRes.noConfusion h
              | some ts =>
                  simp only [hgr] at h
                  cases he : expandNbrs hfn cc st ts { ss with queue := rest } with
                  | none => simp only [he] at h; exact StepRes.noConfusion h
                  | some ss2 =>
                      simp only [he] at h
                      obtain rfl : ss2 = ss' := by injection h
                      exact ⟨cc, st, ca, rest, ts, rfl, hg, hgr, he⟩

theorem searchStep_next_nodup (graphFn : CState → Option (List (String × CState × Int)))
    (is_goal : CState → Option Bool) (hfn : CState → Option PCost) (ss ss' : SS)
    (h : searchStep graphFn is_goal hfn ss = StepRes.next ss')
    (hnd : ss.visited.Nodup) : ss'.visited.Nodup := by
  obtain ⟨cc, st, ca, rest, ts, hp, hg, hgr, he⟩ := searchStep_next_elim _ _ _ _ _ h
  obtain ⟨vs, qs, h1, h2, h3, h4, h5, h6⟩ := expandNbrs_decomp hfn cc st ts _ ss' he
  exact h6 hnd

theorem iterN_nodup (graphFn : CState → Option (List (String × CState × Int)))
    (is_goal : CState → Option Bool) (hfn : CState → Option PCost) :
    ∀ (n : Nat) (ss0 ss : SS), ss0.visited.Nodup →
      iterN graphFn is_goal hfn n ss0 = some ss → ss.visited.Nodup := by
  intro n
  induction n with
  | zero =>
      intro ss0 ss h0 h
      obtain rfl : ss0 = ss := by injection h
      exact h0
  | succ n ih =>
      intro ss0 ss h0 h
      simp only [iterN] at h
      cases hs : searchStep graphFn is_goal hfn ss0 with
      | done r => simp only [hs] at h; exact Option.noConfusion h
      | next ss1 =>
          simp only [hs] at h
          exact ih ss1 ss (searchStep_next_nodup _ _ _ _ _ hs h0) h

end SearchLemmas

section ConcreteScenarios

/-- The raw `craft_plank` rule of Scenario A. -/
def plankRule : Rule :=
  { requires := none, consumes := some [("wood", 1)], produces := [("plank", 4)] }

/-- The compiled `craft_plank` recipe of Scenario A (cost 1). -/
def craftPlank : Recipe :=
  ⟨"craft_plank", make_checker plankRule, make_effector plankRule, 1⟩

/-- Scenario A start state over the bare catalog {wood, plank}. -/
def scenarioAStart : CState := [("wood", 1), ("plank", 0)]

/-- Scenario A goal predicate: at least four planks. -/
def scenarioAGoal : CState → Option Bool := make_goal_checker [("plank", 4)]

/-- The Scenario A catalog extended with every item the heuristic
hard-codes. -/
def extendedCatalog : List String :=
  tools ++ ["coal", "cobble", "wood", "plank", "stick", "ore", "ingot"]

/-- Scenario A start over the extended catalog: one wood, all else zero. -/
def extendedStart : CState :=
  extendedCatalog.map fun k => (k, if k = "wood" then 1 else 0)

/-- The state after crafting the planks over the extended catalog. -/
def extendedAfter : CState :=
  extendedCatalog.map fun k => (k, if k = "plank" then 4 else 0)

/-- A one-item catalog and a chain of three states for exercising the search
bookkeeping with a nonzero heuristic value. -/
def cexS0 : CState := [("a", 0)]

/-- Successor state with one unit of the item. -/
def cexS1 : CState := [("a", 1)]

/-- Successor state with two units of the item. -/
def cexS2 : CState := [("a", 2)]

/-- Expansion function of the chain: one unit-cost step from `cexS0` to
`cexS1` and from `cexS1` to `cexS2`. -/
def cexGraph : CState → Option (List (String × CState × Int)) := fun s =>
  some (if s = cexS0 then [("inc", cexS1, 1)]
        else if s = cexS1 then [("inc", cexS2, 1)] else [])

/-- A goal predicate that never holds, keeping the chain search running. -/
def cexGoal : CState → Option Bool := fun _ => some false

/-- A heuristic giving `cexS1` the finite nonzero value 5 and all other
states 0. -/
def cexH : CState → Option PCost := fun s =>
  some (if s = cexS1 then PCost.fin 5 else PCost.fin 0)

/-- The chain search's bookkeeping after one main-loop iteration. -/
def cexSS1 : SS :=
  { queue := [(PCost.fin 6, cexS1, some "inc")]
    cost := [(cexS0, PCost.fin 0), (cexS1, PCost.fin 1)]
    prev := [(cexS0, none), (cexS1, some cexS0)]
    actions := [(cexS0, none), (cexS1, some "inc")]
    visited := [cexS0, cexS1] }

/-- The chain search's bookkeeping after two main-loop iterations. -/
def cexSS2 : SS :=
  { queue := [(PCost.fin 7, cexS2, some "inc")]
    cost := [(cexS0, PCost.fin 0), (cexS1, PCost.fin 1), (cexS2, PCost.fin 7)]
    prev := [(cexS0, none), (cexS1, some cexS0), (cexS2, some cexS1)]
    actions := [(cexS0, none), (cexS1, some "inc"), (cexS2, some "inc")]
    visited := [cexS0, cexS1, cexS2] }

/-- A start state from which the Scenario A recipe never applies. -/
def deadStart : CState := [("wood", 0)]

/-- Goal predicate used with `deadStart`: at least one wood. -/
def deadGoal : CState → Option Bool := make_goal_checker [("wood", 1)]

/-- A second unreachable-goal instance over {wood, plank}. -/
def deadStart2 : CState := [("wood", 0), ("plank", 7)]

/-- Goal predicate used with `deadStart2`: at least nine planks. -/
def deadGoal2 : CState → Option Bool := make_goal_checker [("plank", 9)]

/-- `deadStart2`'s bookkeeping after the single iteration that empties the
frontier. -/
def deadSS2 : SS :=
  { queue := []
    cost := [(deadStart2, PCost.fin 0)]
    prev := [(deadStart2, none)]
    actions := [(deadStart2, none)]
    visited := [deadStart2] }

end ConcreteScenarios

/-- Running the loop body `n` times and only then continuing consumes the
budget one iteration at a time. -/
theorem searchLoop_iterN (graphFn : CState → Option (List (String × CState × Int)))
    (is_goal : CState → Option Bool) (hfn : CState → Option PCost) :
    ∀ (n f : Nat) (ss0 ss : SS), iterN graphFn is_goal hfn n ss0 = some ss →
      searchLoop graphFn is_goal hfn (n + f) ss0 = searchLoop graphFn is_goal hfn f ss := by
  intro n
  induction n with
  | zero =>
      intro f ss0 ss h
      obtain rfl : ss0 = ss := by injection h
      simp
  | succ n ih =>
      intro f ss0 ss h
      simp only [iterN] at h
      cases hs : searchStep graphFn is_goal hfn ss0 with
      | done r => simp only [hs] at h; exact Option.noConfusion h
      | next ss1 =>
          simp only [hs] at h
          have hadd : n + 1 + f = (n + f) + 1 := by omega
          rw [hadd]
          simp only [searchLoop, hs]
          exact ih f ss1 ss h

/-- C9: a zero or negative time budget makes `search` return the explicit
`None` failure at once; the result does not depend on the expansion, goal, or
heuristic functions, so no state is popped or expanded and no error can be
raised. -/
theorem search_nonpositive_budget
    (graphFn : CState → Option (List (String × CState × Int))) (state : CState)
    (is_goal : CState → Option Bool) (limit : Int) (hfn : CState → Option PCost)
    (hl : limit ≤ 0) :
    search graphFn state is_goal limit hfn = SRes.noPlan := by
  unfold search
  rw [Int.toNat_of_nonpos hl]
  rfl

/-- Witness: a concrete negative budget returns the failure signal. -/
theorem search_nonpositive_budget_witness :
    search (graph []) deadStart deadGoal (-3) heuristic = SRes.noPlan :=
  search_nonpositive_budget _ _ _ _ _ (by decide)

/-- C10: when the goal already holds at the start state and the budget allows
at least one iteration, `search` returns the single-element plan
`[(start, None)]`; the expansion and heuristic functions are universally
quantified and absent from the result, so no state is expanded and the
heuristic is never evaluated. -/
theorem search_goal_at_start
    (graphFn : CState → Option (List (String × CState × Int))) (state : CState)
    (is_goal : CState → Option Bool) (limit : Int) (hfn : CState → Option PCost)
    (hg : is_goal state = some true) (hl : 1 ≤ limit) :
    search graphFn state is_goal limit hfn = SRes.found [(state, none)] := by
  obtain ⟨m, hm⟩ : ∃ m, limit.toNat = m + 1 := ⟨limit.toNat - 1, by omega⟩
  unfold search
  rw [hm]
  have hstep : searchStep graphFn is_goal hfn (searchInit state)
      = StepRes.done (SRes.found [(state, none)]) := by
    simp [searchStep, searchInit, heappop, hg, mapLookup, reconstruct]
  simp only [searchLoop, hstep]

/-- Witness: a concrete already-satisfied goal returns the one-pair plan. -/
theorem search_goal_at_start_witness :
    search (graph []) [("wood", 5)] deadGoal 7 heuristic
      = SRes.found [([("wood", 5)], none)] :=
  search_goal_at_start _ _ _ _ _ (by decide) (by decide)

/-- C2 counterexample: on a concrete instance whose only recipe never
applies, the frontier empties after one iteration and `search` raises (the
modelled `heappop` IndexError) instead of returning the no-plan signal. -/
theorem search_never_raises_cex :
    search (graph [craftPlank]) deadStart deadGoal 5 heuristic = SRes.err := by
  rfl

/-- C2 (amended): `search` yields exactly one outcome — a complete plan, the
explicit `None` signal, or a raised exception — and in every run in which the
frontier becomes empty while budget remains, the outcome is the exception,
not the no-plan signal. -/
theorem search_raises_when_frontier_empties
    (graphFn : CState → Option (List (String × CState × Int))) (state : CState)
    (is_goal : CState → Option Bool) (limit : Int) (hfn : CState → Option PCost)
    (n : Nat) (ss : SS)
    (hreach : iterN graphFn is_goal hfn n (searchInit state) = some ss)
    (hempty : ss.queue = [])
    (hl : n < limit.toNat) :
    search graphFn state is_goal limit hfn = SRes.err := by
  obtain ⟨f, hf⟩ : ∃ f, limit.toNat = n + (f + 1) := ⟨limit.toNat - n - 1, by omega⟩
  unfold search
  rw [hf, searchLoop_iterN graphFn is_goal hfn n (f + 1) (searchInit state) ss hreach]
  simp [searchLoop, searchStep, hempty, heappop]

/-- Witness: the amended statement applied to a concrete emptied-frontier
run. -/
theorem search_raises_when_frontier_empties_witness :
    search (graph [craftPlank]) deadStart2 deadGoal2 9 heuristic = SRes.err :=
  search_raises_when_frontier_empties (graph [craftPlank]) deadStart2 deadGoal2 9
    heuristic 1 deadSS2 (by rfl) (by rfl) (by decide)

/-- C8 counterexample: with the bare catalog {wood, plank} of Scenario A, the
heuristic's hard-coded lookup of "furnace" raises a `KeyError` on the first
admitted neighbor, so `search` raises instead of returning the one-step
plan. -/
theorem scenario_a_bare_catalog_raises :
    search (graph [craftPlank]) scenarioAStart scenarioAGoal 5 heuristic = SRes.err := by
  rfl

/-- C8 (amended): over the catalog extended with the heuristic's hard-coded
item names (all absent items at zero), Scenario A returns the expected
one-step plan — the start with one wood, then action `"craft_plank"` leading
to the final state with zero wood and four planks — and the single applied
recipe has cost 1. -/
theorem scenario_a_extended_catalog_plan :
    search (graph [craftPlank]) extendedStart scenarioAGoal 5 heuristic
      = SRes.found [(extendedStart, none), (extendedAfter, some "craft_plank")] ∧
    lookupItem extendedAfter "wood" = some 0 ∧
    lookupItem extendedAfter "plank" = some 4 ∧
    craftPlank.cost = 1 :=
  ⟨by rfl, by rfl, by rfl, rfl⟩

/-- C1 counterexample: in a reachable iteration (the second) of a concrete
search, the neighbor `cexS2` is admitted with recorded cost 7 — the popped
frontier priority 6 plus the step cost 1 — although the popped state's value
in the cost map is 1, so the cost claimed by the specification would be
1 + 1 = 2, not 7. -/
theorem searchStep_neighbor_cost_cex :
    iterN cexGraph cexGoal cexH 2 (searchInit cexS0) = some cexSS2 ∧
    mapLookup cexSS2.cost cexS2 = some (PCost.fin 7) ∧
    mapLookup cexSS2.cost cexS1 = some (PCost.fin 1) ∧
    cexGraph cexS1 = some [("inc", cexS2, 1)] ∧
    (PCost.fin 1).add (PCost.fin 1) ≠ PCost.fin 7 :=
  ⟨rfl, rfl, rfl, rfl, by decide⟩

/-- C1 (amended): in every main-loop iteration that admits a neighbor, the
cost recorded for the neighbor in the cost map equals the popped frontier
entry's first component — its priority key, which is the popped state's
cost-map value plus the heuristic contribution frozen at its admission, the
two coinciding exactly when that contribution was zero — plus the recipe's
step cost; the neighbor is pushed with priority equal to that recorded value
plus heuristic(neighbor), with predecessor the popped state and the inbound
action recorded. -/
theorem searchStep_neighbor_cost
    (graphFn : CState → Option (List (String × CState × Int)))
    (is_goal : CState → Option Bool) (hfn : CState → Option PCost)
    (ss ss' : SS) (cc : PCost) (st : CState) (ca : Option String)
    (rest : List Entry) (ts : List (String × CState × Int)) (n : CState)
    (hpop : heappop ss.queue = some ((cc, st, ca), rest))
    (hstep : searchStep graphFn is_goal hfn ss = StepRes.next ss')
    (hexp : graphFn st = some ts)
    (hmem : n ∈ ss'.visited) (hfresh : n ∉ ss.visited) :
    ∃ na nc hv, (na, n, nc) ∈ ts ∧ hfn n = some hv ∧
      mapLookup ss'.cost n = some (cc.add (PCost.fin nc)) ∧
      ((cc.add (PCost.fin nc)).add hv, n, some na) ∈ ss'.queue ∧
      mapLookup ss'.prev n = some (some st) ∧
      mapLookup ss'.actions n = some (some na) := by
  obtain ⟨cc2, st2, ca2, rest2, ts2, hp2, hg2, hgr2, he2⟩ :=
    searchStep_next_elim _ _ _ _ _ hstep
  rw [hpop] at hp2
  injection hp2 with hp3
  injection hp3 with hp4 hp5
  injection hp4 with hc1 hc2
  injection hc2 with hc3 hc4
  subst hc1
  subst hc3
  subst hc4
  subst hp5
  rw [hexp] at hgr2
  injection hgr2 with hts
  subst hts
  exact expandNbrs_recorded hfn cc st ts _ ss' he2 n hmem hfresh

/-- Witness: the amended statement applied at the concrete second
iteration of the chain search. -/
theorem searchStep_neighbor_cost_witness :
    ∃ na nc hv, (na, cexS2, nc) ∈ [("inc", cexS2, (1 : Int))] ∧
      cexH cexS2 = some hv ∧
      mapLookup cexSS2.cost cexS2 = some ((PCost.fin 6).add (PCost.fin nc)) ∧
      (((PCost.fin 6).add (PCost.fin nc)).add hv, cexS2, some na) ∈ cexSS2.queue ∧
      mapLookup cexSS2.prev cexS2 = some (some cexS1) ∧
      mapLookup cexSS2.actions cexS2 = some (some na) :=
  searchStep_neighbor_cost cexGraph cexGoal cexH cexSS1 cexSS2
    (PCost.fin 6) cexS1 (some "inc") [] [("inc", cexS2, 1)] cexS2
    (by rfl) (by rfl) (by rfl) (by decide) (by decide)

/-- C3: along any run, a state is marked visited exactly when it is first
admitted (pushed) to the frontier — the newly visited states of an iteration
are precisely the states of that iteration's newly pushed frontier entries,
in order, and each was unvisited before the iteration, so a visited state
(cheaper route or not) is never re-admitted — and the admission log
(`visited`) of every reachable search state is duplicate-free, so no state is
inserted into the frontier more than once per search. -/
theorem searchStep_visited_mark_once
    (graphFn : CState → Option (List (String × CState × Int)))
    (is_goal : CState → Option Bool) (hfn : CState → Option PCost)
    (start : CState) (n : Nat) (ss ss' : SS)
    (hreach : iterN graphFn is_goal hfn n (searchInit start) = some ss)
    (hstep : searchStep graphFn is_goal hfn ss = StepRes.next ss') :
    ∃ e rest vs qs,
      heappop ss.queue = some (e, rest) ∧
      ss'.visited = ss.visited ++ vs ∧
      (∀ v ∈ vs, v ∉ ss.visited) ∧
      ss'.queue = rest ++ qs ∧
      qs.map (fun q => q.2.1) = vs ∧
      ss'.visited.Nodup := by
  obtain ⟨cc, st, ca, rest, ts, hp, hg, hgr, he⟩ := searchStep_next_elim _ _ _ _ _ hstep
  obtain ⟨vs, qs, h1, h2, h3, h4, h5, h6⟩ := expandNbrs_decomp hfn cc st ts _ ss' he
  have hnd : ss.visited.Nodup :=
    iterN_nodup _ _ _ n (searchInit start) ss (by simp [searchInit]) hreach
  exact ⟨(cc, st, ca), rest, vs, qs, hp, h1, h4, h2, h3, h6 hnd⟩

/-- Witness: the visited-marking statement applied at the concrete second
iteration of the chain search. -/
theorem searchStep_visited_mark_once_witness :
    ∃ e rest vs qs,
      heappop cexSS1.queue = some (e, rest) ∧
      cexSS2.visited = cexSS1.visited ++ vs ∧
      (∀ v ∈ vs, v ∉ cexSS1.visited) ∧
      cexSS2.queue = rest ++ qs ∧
      qs.map (fun q => q.2.1) = vs ∧
      cexSS2.visited.Nodup :=
  searchStep_visited_mark_once cexGraph cexGoal cexH cexS0 1 cexSS1 cexSS2
    (by rfl) (by rfl)

/-- Witness: the effect specification applied to the Scenario A recipe and
start state. -/
theorem make_effector_spec_witness :
    ∃ t, make_effector plankRule scenarioAStart = some t ∧
      keys t = keys scenarioAStart ∧
      ∀ j q, lookupItem scenarioAStart j = some q →
        lookupItem t j = some (q + getAmt plankRule.produces j -
          (match plankRule.consumes with
           | some cs => getAmt cs j
           | none => 0)) :=
  make_effector_spec plankRule scenarioAStart (by decide) (by decide)
    (by intro cs hcs
        obtain rfl : cs = [("wood", 1)] := Option.some.inj hcs.symm
        decide)
    (by intro cs hcs
        obtain rfl : cs = [("wood", 1)] := Option.some.inj hcs.symm
        decide)
    (by decide)

/-- A rule with both a `Requires` and a `Consumes` clause for exercising the
compiled precondition. -/
def benchRule : Rule :=
  { requires := some [("bench", 1)], consumes := some [("wood", 1)],
    produces := [("stick", 4)] }

/-- A state satisfying `benchRule`'s precondition. -/
def benchState : CState := [("bench", 1), ("wood", 2), ("stick", 0)]

/-- Witness: the precondition specification applied to `benchRule`. -/
theorem make_checker_spec_witness :
    ∃ b, make_checker benchRule benchState = some b ∧
      (b = true ↔
        (∀ cs, benchRule.consumes = some cs →
          ∀ p ∈ cs, ∃ q, lookupItem benchState p.1 = some q ∧ p.2 ≤ q) ∧
        (∀ rs, benchRule.requires = some rs →
          ∀ p ∈ rs, ∃ q, lookupItem benchState p.1 = some q ∧ 0 < q)) :=
  make_checker_spec benchRule benchState (by decide)
    (by intro cs hcs
        obtain rfl : cs = [("wood", 1)] := Option.some.inj hcs.symm
        decide)
    (by intro rs hrs
        obtain rfl : rs = [("bench", 1)] := Option.some.inj hrs.symm
        decide)

/-- Witness: the expansion specification applied to the extended Scenario A
instance. -/
theorem graph_spec_witness :
    graph [craftPlank] extendedStart = some ([craftPlank].filterMap fun r =>
      match r.check extendedStart, r.effect extendedStart with
      | some true, some s2 => some (r.name, s2, r.cost)
      | _, _ => none) ∧
    ([craftPlank].filterMap fun r =>
      match r.check extendedStart, r.effect extendedStart with
      | some true, some s2 => some (r.name, s2, r.cost)
      | _, _ => none).length ≤ [craftPlank].length :=
  graph_spec [craftPlank] extendedStart
    (by intro r hr
        obtain rfl : r = craftPlank := by simpa using hr
        exact ⟨true, by rfl, fun _ => ⟨extendedAfter, by rfl⟩⟩)

/-- Witness: the heuristic specification applied to the extended Scenario A
start state. -/
theorem heuristic_spec_witness :
    (heuristic extendedStart = some PCost.inf ↔ overAccumulated extendedStart) ∧
    (heuristic extendedStart = some (PCost.fin 0) ↔ ¬ overAccumulated extendedStart) :=
  heuristic_spec extendedStart (by decide) (by decide)

end CraftPlanner
